import Mathlib

/-!
Verification of the Burrows-Wheeler text-compression pipeline implemented in
`src/lib/bwt.ts`.  The JavaScript functions are shallowly embedded here:
strings become lists of characters, JS exceptions (out-of-bounds character
accesses, `undefined` property reads) become `none` of an `Option` result,
and JS floating-point ratios become `Option ℚ` with `none` standing for the
NaN produced by a zero denominator.  `localeCompare`-based sorting is
modelled as stable insertion sort under code-point lexicographic order,
which agrees with the default collation on the sentinel, letter, digit and
comma alphabets this pipeline manipulates.
-/

namespace Bwt

/-- JS strings are modelled as lists of characters. -/
abbrev Str := List Char

/-- Code-point comparison of two characters, as a Bool. -/
def charLe (a b : Char) : Bool := decide (a.toNat ≤ b.toNat)

/-- Lexicographic code-point order on strings; model of `localeCompare(a, b) <= 0`
on the alphabets used by this pipeline. -/
def lexLe : Str → Str → Bool
  | [], _ => true
  | _ :: _, [] => false
  | a :: as, b :: bs =>
    if a.toNat < b.toNat then true
    else if b.toNat < a.toNat then false
    else lexLe as bs

/-- Insert `x` into `l` in front of the first element `y` with `le x y`. -/
def orderedInsertBy (le : α → α → Bool) (x : α) : List α → List α
  | [] => [x]
  | y :: ys => if le x y then x :: y :: ys else y :: orderedInsertBy le x ys

/-- Stable insertion sort; model of the (stable) JS `Array.prototype.sort`
with a total `<=` comparator. -/
def insertionSortBy (le : α → α → Bool) : List α → List α
  | [] => []
  | x :: xs => orderedInsertBy le x (insertionSortBy le xs)

/-- Helper of `dedupFirst`: keep each character the first time it appears,
tracking the characters already seen. -/
def dedupFirstAux (seen : List Char) : Str → Str
  | [] => []
  | c :: rest =>
    if c ∈ seen then dedupFirstAux seen rest
    else c :: dedupFirstAux (c :: seen) rest

/-- Unique characters of a string in first-occurrence order; model of
`Array.from(new Set(text))` (JS `Set` iterates in insertion order). -/
def dedupFirst (s : Str) : Str := dedupFirstAux [] s

/-- Sorted set of the characters of a string; model of
`Array.from(new Set(text)).sort()` (default JS sort compares code units). -/
def sortedUnique (text : Str) : List Char := insertionSortBy charLe (dedupFirst text)

/-- First index of `c` in a list; model of JS `indexOf`.  The source only
calls it when `c` is present; on absence JS yields `-1` while this model
yields the list length (both out of scope for reachable states). -/
def jsIndexOf (c : Char) : List Char → Nat
  | [] => 0
  | a :: rest => if a = c then 0 else jsIndexOf c rest + 1

/-- Numeric value of a decimal digit character. -/
def digitVal (c : Char) : Nat := c.toNat - 48

/-- Decimal digits of `n`, most significant first, computed with explicit
fuel so that the definition is structurally recursive. -/
def natToDigitsAux : Nat → Nat → Str
  | 0, _ => []
  | fuel + 1, n =>
    if n = 0 then [] else natToDigitsAux fuel (n / 10) ++ [Char.ofNat (48 + n % 10)]

/-- Decimal rendering of a natural number; model of JS `String(n)` for the
nonnegative integers this pipeline produces. -/
def natToDigits (n : Nat) : Str := if n = 0 then ['0'] else natToDigitsAux (n + 1) n

/-- Value of a string of decimal digits; model of `parseInt` / `Number` on
digit-only strings. -/
def parseNatVal (s : Str) : Nat := s.foldl (fun acc c => acc * 10 + digitVal c) 0

/-- Model of JS `Number(s)` as used on the comma-split pieces of an MTF index
string: a nonempty all-digit string parses to its value, anything else is
NaN, modelled as `none`. -/
def jsNumber (s : Str) : Option Nat :=
  if s ≠ [] ∧ s.all Char.isDigit then some (parseNatVal s) else none

/-- `true` iff the string contains no decimal digit character. -/
def noDigits (s : Str) : Bool := s.all (fun c => !c.isDigit)

/-- Split a string at every comma; model of JS `split(',')` (so the empty
string yields one empty piece). -/
def splitComma : Str → List Str
  | [] => [[]]
  | c :: rest =>
    if c = ',' then [] :: splitComma rest
    else
      match splitComma rest with
      | s :: ss => (c :: s) :: ss
      | [] => [[c]]

/-- Join decimal renderings with comma separators; model of JS
`indices.join(',')`. -/
def joinCommaNat : List Nat → Str
  | [] => []
  | [n] => natToDigits n
  | n :: rest => natToDigits n ++ ',' :: joinCommaNat rest

/-- JS floating-point division of two lengths, as an exact rational;
`none` models the NaN (or infinity) produced by a zero denominator. -/
def jsDiv (a b : Nat) : Option ℚ := if b = 0 then none else some ((a : ℚ) / (b : ℚ))

/-- The loosely-typed `metadata` bag attached to transform results and
pipeline steps; absent keys are `none`.  The source field `compressionRatio`
is embedded as `compressionRatioVal`. -/
structure Metadata where
  primaryIndex : Option Nat := none
  originalLength : Option Nat := none
  rotations : Option Nat := none
  alphabet : Option (List Char) := none
  averageIndex : Option ℚ := none
  encodedLength : Option Nat := none
  compressionRatioVal : Option (Option ℚ) := none

/-- Metadata bag with every key absent. -/
def emptyMetadata : Metadata := {}

/-- Result of a single forward transform (interface `TransformResult`). -/
structure TransformResult where
  transformed : Str
  primaryIndex : Nat
  metadata : Option Metadata := none

/-- One stage of the pipeline (interface `CompressionStep`).  The source
field `ratio` is embedded as `ratioVal`, an `Option ℚ` whose `none` models
the NaN of a zero-length-output division. -/
structure CompressionStep where
  name : String
  input : Str
  output : Str
  ratioVal : Option ℚ := none
  metadata : Option Metadata := none

/-- Forward Burrows-Wheeler transform (`burrowsWheelerTransform`): append
the sentinel, sort all rotations, take the last column, report the sorted
position of the unrotated text.  Note that the source removes the *last*
character of the last column (`transformed.slice(0, -1)`), not the sentinel
at `primaryIndex`. -/
def burrowsWheelerTransform (text : Str) : TransformResult :=
  if text = [] then { transformed := [], primaryIndex := 0 }
  else
    let textWithMarker := text ++ ['$']
    let n := textWithMarker.length
    let rotations := (List.range n).map
      (fun i => (textWithMarker.drop i ++ textWithMarker.take i, i))
    let sorted := insertionSortBy (fun a b => lexLe a.1 b.1) rotations
    let lastColumn := sorted.map (fun r => r.1.getLastD '$')
    let pIdx := sorted.findIdx (fun r => r.2 == 0)
    { transformed := lastColumn.dropLast
      primaryIndex := pIdx
      metadata := some { emptyMetadata with
        originalLength := some text.length
        rotations := some sorted.length } }

/-- One column step of the naive inverse BWT: prepend the transformed text
as a new leftmost column, then re-sort the rows. -/
def bwtTableStep (textWithMarker : Str) (table : List Str) : List Str :=
  insertionSortBy lexLe (List.zipWith (fun c row => c :: row) textWithMarker table)

/-- The inverse-BWT table after `k` column steps. -/
def bwtTable (textWithMarker : Str) : Nat → List Str
  | 0 => List.replicate textWithMarker.length []
  | k + 1 => bwtTableStep textWithMarker (bwtTable textWithMarker k)

/-- Inverse Burrows-Wheeler transform (`inverseBurrowsWheelerTransform`).
The source appends the sentinel at the *end* of the transformed text, builds
the table, and reads row `primaryIndex`; `none` models the TypeError thrown
when `primaryIndex` is outside the table. -/
def inverseBurrowsWheelerTransform (transformed : Str) (primaryIndex : Nat) : Option Str :=
  if transformed = [] then some []
  else
    let textWithMarker := transformed ++ ['$']
    let n := textWithMarker.length
    let table := bwtTable textWithMarker n
    match table[primaryIndex]? with
    | none => none
    | some row => some row.dropLast

/-- Index sequence of the move-to-front loop: emit the position of each
character in the working alphabet, then splice it out and unshift it to the
front. -/
def mtfIndices : List Char → Str → List Nat
  | _, [] => []
  | alphabet, c :: rest =>
    let index := jsIndexOf c alphabet
    index :: mtfIndices (c :: alphabet.eraseIdx index) rest

/-- Forward move-to-front transform (`moveToFrontTransform`). -/
def moveToFrontTransform (text : Str) : TransformResult :=
  if text = [] then { transformed := [], primaryIndex := 0 }
  else
    let indices := mtfIndices (sortedUnique text) text
    { transformed := joinCommaNat indices
      primaryIndex := 0
      metadata := some { emptyMetadata with
        alphabet := some (sortedUnique text)
        averageIndex := some ((indices.sum : ℚ) / (indices.length : ℚ)) } }

/-- Reconstruction loop of the inverse MTF: read the character at each
parsed index, splice it out and unshift it to the front.  `none` models the
garbage produced by a NaN index or an out-of-range read. -/
def inverseMtfRun : List Char → List (Option Nat) → Option Str
  | _, [] => some []
  | _, none :: _ => none
  | alphabet, some i :: rest =>
    match alphabet[i]? with
    | none => none
    | some c =>
      match inverseMtfRun (c :: alphabet.eraseIdx i) rest with
      | none => none
      | some s => some (c :: s)

/-- Inverse move-to-front transform (`inverseMoveToFrontTransform`):
split the index string on commas, parse each piece as a number, and replay
the move-to-front loop against `originalAlphabet`. -/
def inverseMoveToFrontTransform (indices : Str) (originalAlphabet : List Char) : Option Str :=
  if indices = [] then some []
  else inverseMtfRun originalAlphabet ((splitComma indices).map jsNumber)

/-- Encoding of one run: the character alone for a run of length 1, the
decimal count followed by the character otherwise. -/
def emitRun (count : Nat) (c : Char) : Str :=
  if count > 1 then natToDigits count ++ [c] else [c]

/-- Main loop of `runLengthEncode`, carrying the current character and its
run count exactly as the source loop does. -/
def rleEncodeLoop (currentChar : Char) (count : Nat) : Str → Str
  | [] => emitRun count currentChar
  | c :: rest =>
    if c = currentChar then rleEncodeLoop currentChar (count + 1) rest
    else emitRun count currentChar ++ rleEncodeLoop c 1 rest

/-- Run-length encoding (`runLengthEncode`). -/
def runLengthEncode (text : Str) : TransformResult :=
  match text with
  | [] => { transformed := [], primaryIndex := 0 }
  | c :: rest =>
    let encoded := rleEncodeLoop c 1 rest
    { transformed := encoded
      primaryIndex := 0
      metadata := some { emptyMetadata with
        originalLength := some text.length
        encodedLength := some encoded.length
        compressionRatioVal := some (jsDiv text.length encoded.length) } }

/-- Scanner of `runLengthDecode`.  The first argument is the scanner state:
`none` while scanning literally (top of the source while-loop), and
`some acc` while inside the count-extraction inner loop, where `acc` is the
`parseInt` value of the digits consumed so far.  A digit run that reaches
the end of the string makes the source read one character past the end
(`char.repeat` on `undefined` throws), modelled by the `some _, []` case
returning `none`. -/
def rleDecodeSt : Option Nat → Str → Option Str
  | none, [] => some []
  | some _, [] => none
  | none, c :: rest =>
    if c.isDigit ∧ rest ≠ [] then rleDecodeSt (some (digitVal c)) rest
    else
      match rleDecodeSt none rest with
      | none => none
      | some d => some (c :: d)
  | some acc, c :: rest =>
    if c.isDigit then rleDecodeSt (some (acc * 10 + digitVal c)) rest
    else
      match rleDecodeSt none rest with
      | none => none
      | some d => some (List.replicate acc c ++ d)

/-- Run-length decoding (`runLengthDecode`); `none` models the TypeError of
the out-of-bounds character access described at `rleDecodeSt`. -/
def runLengthDecode (encoded : Str) : Option Str :=
  if encoded = [] then some [] else rleDecodeSt none encoded

/-- The four-stage compression pipeline (`compressText`): Original, BWT,
MTF, RLE, each step recording its input, output, ratio and metadata.  The
BWT step merges `primaryIndex` into the spread of the transform's metadata
bag. -/
def compressText (text : Str) : List CompressionStep :=
  let bwtResult := burrowsWheelerTransform text
  let mtfResult := moveToFrontTransform bwtResult.transformed
  let rleResult := runLengthEncode mtfResult.transformed
  [ { name := "Original", input := text, output := text, ratioVal := some 1 },
    { name := "BWT", input := text, output := bwtResult.transformed
      ratioVal := jsDiv text.length bwtResult.transformed.length
      metadata := some { (bwtResult.metadata.getD emptyMetadata) with
        primaryIndex := some bwtResult.primaryIndex } },
    { name := "MTF", input := bwtResult.transformed, output := mtfResult.transformed
      ratioVal := jsDiv bwtResult.transformed.length mtfResult.transformed.length
      metadata := mtfResult.metadata },
    { name := "RLE", input := mtfResult.transformed, output := rleResult.transformed
      ratioVal := jsDiv mtfResult.transformed.length rleResult.transformed.length
      metadata := rleResult.metadata } ]

/-- The decompression pipeline (`decompressText`): lists shorter than 4
return the empty string at once; otherwise RLE-decode `steps[3].output`,
then invert MTF only when `steps[2].metadata.alphabet` is present, then
invert BWT only when `steps[1].metadata.primaryIndex` is present.  `none`
models an exception thrown by one of the sub-steps. -/
def decompressText (steps : List CompressionStep) : Option Str :=
  match steps with
  | _ :: s1 :: s2 :: s3 :: _ =>
    match runLengthDecode s3.output with
    | none => none
    | some afterRle =>
      let afterMtf :=
        match Option.bind s2.metadata Metadata.alphabet with
        | some alphabet => inverseMoveToFrontTransform afterRle alphabet
        | none => some afterRle
      match afterMtf with
      | none => none
      | some current =>
        match Option.bind s1.metadata Metadata.primaryIndex with
        | some pIdx => inverseBurrowsWheelerTransform current pIdx
        | none => some current
  | _ => some []

theorem digitVal_ofNat (m : Nat) (h : m < 10) : digitVal (Char.ofNat (48 + m)) = m := by
  interval_cases m <;> decide

theorem isDigit_ofNat (m : Nat) (h : m < 10) : (Char.ofNat (48 + m)).isDigit = true := by
  interval_cases m <;> decide

theorem natToDigitsAux_all_digits :
    ∀ (fuel n : Nat), ∀ c ∈ natToDigitsAux fuel n, c.isDigit = true := by
  intro fuel
  induction fuel with
  | zero => intro n c hc; simp [natToDigitsAux] at hc
  | succ fuel ih =>
    intro n c hc
    by_cases hn : n = 0
    · simp [natToDigitsAux, hn] at hc
    · rw [natToDigitsAux, if_neg hn] at hc
      rcases List.mem_append.1 hc with h1 | h2
      · exact ih _ c h1
      · rw [List.mem_singleton.1 h2]
        exact isDigit_ofNat _ (Nat.mod_lt _ (by omega))

theorem foldl_natToDigitsAux :
    ∀ (fuel n acc : Nat), n ≤ fuel →
      List.foldl (fun a c => a * 10 + digitVal c) acc (natToDigitsAux fuel n) =
        acc * 10 ^ (natToDigitsAux fuel n).length + n := by
  intro fuel
  induction fuel with
  | zero =>
    intro n acc hn
    have : n = 0 := by omega
    simp [natToDigitsAux, this]
  | succ fuel ih =>
    intro n acc hn
    by_cases hn0 : n = 0
    · simp [natToDigitsAux, hn0]
    · rw [natToDigitsAux, if_neg hn0]
      have hdiv : n / 10 ≤ fuel := by
        have : n / 10 < n := Nat.div_lt_self (by omega) (by omega)
        omega
      rw [List.foldl_append, ih _ acc hdiv]
      simp only [List.foldl_cons, List.foldl_nil, List.length_append, List.length_singleton]
      rw [digitVal_ofNat _ (Nat.mod_lt _ (by omega))]
      have hmod : 10 * (n / 10) + n % 10 = n := Nat.div_add_mod n 10
      rw [pow_succ]
      ring_nf
      omega

theorem parseNatVal_natToDigits (n : Nat) : parseNatVal (natToDigits n) = n := by
  by_cases hn : n = 0
  · simp [natToDigits, hn, parseNatVal, digitVal]
  · rw [natToDigits, if_neg hn]
    have := foldl_natToDigitsAux (n + 1) n 0 (by omega)
    simpa [parseNatVal] using this

theorem natToDigits_ne_nil (n : Nat) : natToDigits n ≠ [] := by
  by_cases hn : n = 0
  · simp [natToDigits, hn]
  · rw [natToDigits, if_neg hn, natToDigitsAux, if_neg hn]
    simp

theorem natToDigits_all_digits (n : Nat) : ∀ c ∈ natToDigits n, c.isDigit = true := by
  intro c hc
  by_cases hn : n = 0
  · simp [natToDigits, hn] at hc
    rw [hc]; decide
  · rw [natToDigits, if_neg hn] at hc
    exact natToDigitsAux_all_digits _ _ c hc

theorem natToDigits_no_comma (n : Nat) : ',' ∉ natToDigits n := by
  intro h
  have := natToDigits_all_digits n ',' h
  simp at this

theorem jsNumber_natToDigits (n : Nat) : jsNumber (natToDigits n) = some n := by
  rw [jsNumber, if_pos ⟨natToDigits_ne_nil n, by
    rw [List.all_eq_true]; exact natToDigits_all_digits n⟩]
  rw [parseNatVal_natToDigits]


theorem splitComma_no_comma : ∀ s : Str, ',' ∉ s → splitComma s = [s] := by
  intro s
  induction s with
  | nil => intro _; rfl
  | cons c rest ih =>
    intro h
    have hc : c ≠ ',' := fun hc => h (hc ▸ List.mem_cons_self c rest)
    have hrest : ',' ∉ rest := fun hr => h (List.mem_cons_of_mem c hr)
    rw [splitComma, if_neg (fun hcc => hc hcc), ih hrest]

theorem splitComma_append :
    ∀ (x t : Str), ',' ∉ x → splitComma (x ++ ',' :: t) = x :: splitComma t := by
  intro x
  induction x with
  | nil => intro t _; simp [splitComma]
  | cons c x' ih =>
    intro t h
    have hc : c ≠ ',' := fun hc => h (hc ▸ List.mem_cons_self c x')
    have hx' : ',' ∉ x' := fun hr => h (List.mem_cons_of_mem c hr)
    rw [List.cons_append, splitComma, if_neg (fun hcc => hc hcc), ih t hx']

theorem splitComma_joinCommaNat :
    ∀ l : List Nat, l ≠ [] → splitComma (joinCommaNat l) = l.map natToDigits := by
  intro l
  induction l with
  | nil => intro h; exact absurd rfl h
  | cons n rest ih =>
    intro _
    match rest with
    | [] => rw [joinCommaNat, splitComma_no_comma _ (natToDigits_no_comma n)]; rfl
    | m :: rest' =>
      rw [joinCommaNat, splitComma_append _ _ (natToDigits_no_comma n), ih (by simp)]
      all_goals simp

theorem joinCommaNat_ne_nil : ∀ l : List Nat, l ≠ [] → joinCommaNat l ≠ [] := by
  intro l hl
  match l with
  | [n] => rw [joinCommaNat]; exact natToDigits_ne_nil n
  | n :: m :: rest =>
    rw [joinCommaNat]
    all_goals simp [natToDigits_ne_nil n]

theorem map_jsNumber_splitComma_join (l : List Nat) (hl : l ≠ []) :
    (splitComma (joinCommaNat l)).map jsNumber = l.map some := by
  rw [splitComma_joinCommaNat l hl, List.map_map]
  exact List.map_congr_left (fun n _ => jsNumber_natToDigits n)

theorem mem_dedupFirstAux :
    ∀ (l : Str) (seen : List Char) (x : Char), x ∈ l → x ∉ seen → x ∈ dedupFirstAux seen l := by
  intro l
  induction l with
  | nil => intro seen x hx _; simp at hx
  | cons c rest ih =>
    intro seen x hx hseen
    by_cases hxc : x = c
    · subst hxc
      rw [dedupFirstAux, if_neg hseen]
      exact List.mem_cons_self x _
    · have hxr : x ∈ rest := by
        rcases List.mem_cons.1 hx with h | h
        · exact absurd h hxc
        · exact h
      by_cases hcs : c ∈ seen
      · rw [dedupFirstAux, if_pos hcs]; exact ih seen x hxr hseen
      · rw [dedupFirstAux, if_neg hcs]
        exact List.mem_cons_of_mem c
          (ih (c :: seen) x hxr (by simp [hxc, hseen]))

theorem mem_orderedInsertBy (le : α → α → Bool) (a x : α) :
    ∀ l : List α, x ∈ orderedInsertBy le a l ↔ x = a ∨ x ∈ l := by
  intro l
  induction l with
  | nil => simp [orderedInsertBy]
  | cons y ys ih =>
    rw [orderedInsertBy]
    by_cases h : le a y
    · rw [if_pos h]; simp
    · rw [if_neg h]; simp [ih]; tauto

theorem mem_insertionSortBy (le : α → α → Bool) (x : α) :
    ∀ l : List α, x ∈ insertionSortBy le l ↔ x ∈ l := by
  intro l
  induction l with
  | nil => simp [insertionSortBy]
  | cons y ys ih =>
    rw [insertionSortBy, mem_orderedInsertBy]
    simp [ih]

theorem mem_sortedUnique (s : Str) (x : Char) (hx : x ∈ s) : x ∈ sortedUnique s := by
  rw [sortedUnique, mem_insertionSortBy]
  exact mem_dedupFirstAux s [] x hx (by simp)

theorem getElem?_jsIndexOf :
    ∀ (l : List Char) (c : Char), c ∈ l → l[jsIndexOf c l]? = some c := by
  intro l
  induction l with
  | nil => intro c hc; simp at hc
  | cons a rest ih =>
    intro c hc
    by_cases hac : a = c
    · rw [jsIndexOf, if_pos hac]
      simp [hac]
    · have hcr : c ∈ rest := by
        rcases List.mem_cons.1 hc with h | h
        · exact absurd h.symm hac
        · exact h
      rw [jsIndexOf, if_neg hac, List.getElem?_cons_succ]
      exact ih c hcr

theorem mem_cons_eraseIdx_jsIndexOf :
    ∀ (l : List Char) (c d : Char), c ∈ l → d ∈ l →
      d ∈ c :: l.eraseIdx (jsIndexOf c l) := by
  intro l
  induction l with
  | nil => intro c d hc _; simp at hc
  | cons a rest ih =>
    intro c d hc hd
    by_cases hac : a = c
    · rw [jsIndexOf, if_pos hac, List.eraseIdx_cons_zero]
      rcases List.mem_cons.1 hd with h | h
      · rw [h, hac]; exact List.mem_cons_self c _
      · exact List.mem_cons_of_mem c h
    · have hcr : c ∈ rest := by
        rcases List.mem_cons.1 hc with h | h
        · exact absurd h.symm hac
        · exact h
      rw [jsIndexOf, if_neg hac, List.eraseIdx_cons_succ]
      rcases List.mem_cons.1 hd with h | h
      · rw [h]; exact List.mem_cons_of_mem c (List.mem_cons_self a _)
      · rcases List.mem_cons.1 (ih c d hcr h) with h2 | h2
        · rw [h2]; exact List.mem_cons_self c _
        · exact List.mem_cons_of_mem c (List.mem_cons_of_mem a h2)

theorem inverseMtfRun_mtfIndices :
    ∀ (chars : Str) (alphabet : List Char), (∀ c ∈ chars, c ∈ alphabet) →
      inverseMtfRun alphabet ((mtfIndices alphabet chars).map some) = some chars := by
  intro chars
  induction chars with
  | nil => intro alphabet _; rfl
  | cons c rest ih =>
    intro alphabet hmem
    have hc : c ∈ alphabet := hmem c (List.mem_cons_self c rest)
    have hrec := ih (c :: alphabet.eraseIdx (jsIndexOf c alphabet))
      (fun d hd => mem_cons_eraseIdx_jsIndexOf alphabet c d hc
        (hmem d (List.mem_cons_of_mem c hd)))
    rw [mtfIndices, List.map_cons]
    simp only [inverseMtfRun, getElem?_jsIndexOf alphabet c hc, hrec]


theorem mtfIndices_ne_nil (alphabet : List Char) (c : Char) (rest : Str) :
    mtfIndices alphabet (c :: rest) ≠ [] := by
  rw [mtfIndices]; simp

/-- C6: for every non-empty string S, the forward MTF transform captures the
sorted unique alphabet of S in its metadata, and the inverse MTF applied to
the transformed index string together with that alphabet recovers S.  (The
claim as stated over every string fails at the empty string, where no
metadata bag is returned at all; see the counterexample theorem.) -/
theorem c6_mtf_round_trip_nonempty (S : Str) (h : S ≠ []) :
    Option.bind (moveToFrontTransform S).metadata Metadata.alphabet = some (sortedUnique S) ∧
    inverseMoveToFrontTransform (moveToFrontTransform S).transformed (sortedUnique S) =
      some S := by
  constructor
  · rw [moveToFrontTransform, if_neg h]
    rfl
  · rw [moveToFrontTransform, if_neg h]
    match S, h with
    | c :: rest, _ =>
      rw [inverseMoveToFrontTransform,
        if_neg (joinCommaNat_ne_nil _ (mtfIndices_ne_nil _ c rest)),
        map_jsNumber_splitComma_join _ (mtfIndices_ne_nil _ c rest)]
      exact inverseMtfRun_mtfIndices (c :: rest) (sortedUnique (c :: rest))
        (fun d hd => mem_sortedUnique _ d hd)

theorem rleDecodeSt_digits :
    ∀ (ds : Str) (acc : Nat) (cc : Char) (xs : Str), (∀ c ∈ ds, c.isDigit = true) →
      rleDecodeSt (some acc) (ds ++ cc :: xs) =
        rleDecodeSt (some (List.foldl (fun a c => a * 10 + digitVal c) acc ds)) (cc :: xs) := by
  intro ds
  induction ds with
  | nil => intro acc cc xs _; rfl
  | cons d ds' ih =>
    intro acc cc xs hds
    rw [List.cons_append, rleDecodeSt,
      if_pos (hds d (List.mem_cons_self d ds')), List.foldl_cons]
    exact ih _ cc xs (fun c hc => hds c (List.mem_cons_of_mem d hc))

theorem decode_emitRun :
    ∀ (cc : Char) (xs : Str) (count : Nat), cc.isDigit = false → 1 ≤ count →
      rleDecodeSt none (emitRun count cc ++ xs) =
        (rleDecodeSt none xs).map (fun d => List.replicate count cc ++ d) := by
  intro cc xs count hcc hcount
  by_cases h1 : count > 1
  · rw [emitRun, if_pos h1]
    obtain ⟨d, ds, hds⟩ := List.exists_cons_of_ne_nil (natToDigits_ne_nil count)
    have hdig : ∀ c ∈ natToDigits count, c.isDigit = true := natToDigits_all_digits count
    have hd : d.isDigit = true := hdig d (by rw [hds]; exact List.mem_cons_self d ds)
    rw [hds, List.append_assoc, List.singleton_append, List.cons_append, rleDecodeSt,
      if_pos ⟨hd, by simp⟩]
    rw [rleDecodeSt_digits ds (digitVal d) cc xs
      (fun c hc => hdig c (by rw [hds]; exact List.mem_cons_of_mem d hc))]
    have hval : List.foldl (fun a c => a * 10 + digitVal c) (digitVal d) ds = count := by
      have := parseNatVal_natToDigits count
      rw [hds] at this
      simpa [parseNatVal] using this
    rw [hval, rleDecodeSt, if_neg (by simp [hcc])]
    cases rleDecodeSt none xs <;> rfl
  · have hc1 : count = 1 := by omega
    subst hc1
    rw [emitRun, if_neg (by omega), List.singleton_append, rleDecodeSt,
      if_neg (by simp [hcc])]
    cases rleDecodeSt none xs <;> simp

theorem rle_encode_decode :
    ∀ (rest : Str) (cc : Char) (count : Nat), cc.isDigit = false →
      (∀ c ∈ rest, c.isDigit = false) → 1 ≤ count →
      rleDecodeSt none (rleEncodeLoop cc count rest) =
        some (List.replicate count cc ++ rest) := by
  intro rest
  induction rest with
  | nil =>
    intro cc count hcc hrest hcount
    rw [rleEncodeLoop]
    have := decode_emitRun cc [] count hcc hcount
    simpa [rleDecodeSt] using this
  | cons c rest' ih =>
    intro cc count hcc hrest hcount
    rw [rleEncodeLoop]
    by_cases hceq : c = cc
    · rw [if_pos hceq]
      rw [ih cc (count + 1) hcc (fun x hx => hrest x (List.mem_cons_of_mem c hx)) (by omega)]
      rw [List.replicate_succ', hceq]
      simp
    · rw [if_neg hceq]
      rw [decode_emitRun cc _ count hcc hcount,
        ih c 1 (hrest c (List.mem_cons_self c rest'))
          (fun x hx => hrest x (List.mem_cons_of_mem c hx)) (by omega)]
      simp

theorem runLengthDecode_eq_st (s : Str) : runLengthDecode s = rleDecodeSt none s := by
  cases s <;> rfl

/-- C5: run-length decoding inverts run-length encoding on every string that
contains no decimal digit character.  (The claim as stated, over the
digit-and-comma strings that the MTF stage produces, fails; see the
counterexample theorem.) -/
theorem c5_rle_round_trip_digit_free (S : Str) (h : noDigits S = true) :
    runLengthDecode (runLengthEncode S).transformed = some S := by
  have hmem : ∀ c ∈ S, c.isDigit = false := by
    rw [noDigits, List.all_eq_true] at h
    intro c hc
    simpa using h c hc
  match S with
  | [] => rfl
  | c :: rest =>
    rw [runLengthEncode]
    rw [runLengthDecode_eq_st]
    have := rle_encode_decode rest c 1 (hmem c (List.mem_cons_self c rest))
      (fun x hx => hmem x (List.mem_cons_of_mem c hx)) (by omega)
    simpa using this

/-- C5 witness: the digit-free round trip at the concrete input "aaab",
which encodes to "3ab" and decodes back. -/
theorem c5_rle_round_trip_digit_free_witness :
    noDigits ['a', 'a', 'a', 'b'] = true ∧
    runLengthDecode (runLengthEncode ['a', 'a', 'a', 'b']).transformed =
      some ['a', 'a', 'a', 'b'] :=
  ⟨by decide, c5_rle_round_trip_digit_free ['a', 'a', 'a', 'b'] (by decide)⟩

/-- C5 counterexample: the string "0,0" is an actual MTF-stage output (it is
the MTF transform of "aa"), yet run-length decoding its run-length encoding
yields "0", not "0,0": the leading digit is consumed as a run count for the
comma.  This refutes the claimed round trip over the digit-and-comma strings
produced by MTF. -/
theorem c5_rle_round_trip_fails_on_mtf_output :
    (moveToFrontTransform ['a', 'a']).transformed = ['0', ',', '0'] ∧
    runLengthDecode (runLengthEncode ['0', ',', '0']).transformed = some ['0'] ∧
    runLengthDecode (runLengthEncode ['0', ',', '0']).transformed ≠
      some ['0', ',', '0'] := by
  decide

/-- C6 witness: the non-empty round trip at the concrete input "ba", whose
captured alphabet is ['a', 'b'] and whose index string is "1,1". -/
theorem c6_mtf_round_trip_nonempty_witness :
    (['b', 'a'] : Str) ≠ [] ∧
    (Option.bind (moveToFrontTransform ['b', 'a']).metadata Metadata.alphabet =
        some (sortedUnique ['b', 'a']) ∧
      inverseMoveToFrontTransform (moveToFrontTransform ['b', 'a']).transformed
        (sortedUnique ['b', 'a']) = some ['b', 'a']) :=
  ⟨by decide, c6_mtf_round_trip_nonempty ['b', 'a'] (by decide)⟩

/-- C6 counterexample: at the empty string the forward MTF transform returns
no metadata bag at all, so the alphabet named by the claimed equation does
not exist there (in the source, reading `.alphabet` of the absent metadata
throws a TypeError). -/
theorem c6_mtf_empty_has_no_alphabet :
    (moveToFrontTransform []).metadata = none := by
  rfl

/-- C1: the claimed pipeline round-trip law fails on the sentinel-free text
"aa": decompression of its compression chain aborts (modelled by `none`,
where the source throws a TypeError reading row 2 of a 2-row inverse-BWT
table, after run-length decoding has already mangled the MTF output "0,0"
into "0"), instead of returning "aa". -/
theorem c1_pipeline_round_trip_fails_on_aa :
    decompressText (compressText ['a', 'a']) = none ∧
    decompressText (compressText ['a', 'a']) ≠ some ['a', 'a'] := by
  decide

/-- C2: on "banana" the forward BWT does report primaryIndex 4, but its
returned string is "annb$a" - the last column with its *last* character
removed, so the sentinel is still present at position 4 - and not the
claimed de-sentineled "annbaa". -/
theorem c2_bwt_banana_keeps_sentinel :
    (burrowsWheelerTransform ['b', 'a', 'n', 'a', 'n', 'a']).primaryIndex = 4 ∧
    (burrowsWheelerTransform ['b', 'a', 'n', 'a', 'n', 'a']).transformed =
      ['a', 'n', 'n', 'b', '$', 'a'] ∧
    (burrowsWheelerTransform ['b', 'a', 'n', 'a', 'n', 'a']).transformed ≠
      ['a', 'n', 'n', 'b', 'a', 'a'] := by
  decide

/-- C3: decompression does not report explicit failures.  A 4-step sequence
whose BWT and MTF metadata are absent is answered with the merely
RLE-decoded string (both inversion sub-steps are skipped silently), and a
3-step sequence is answered with the empty string; neither is an explicit
failure (`none`). -/
theorem c3_decompress_silently_skips :
    decompressText [⟨"Original", [], [], none, none⟩, ⟨"BWT", [], [], none, none⟩,
      ⟨"MTF", [], [], none, none⟩, ⟨"RLE", [], ['a', 'b'], none, none⟩] = some ['a', 'b'] ∧
    decompressText [⟨"Original", [], [], none, none⟩, ⟨"BWT", [], [], none, none⟩,
      ⟨"MTF", [], [], none, none⟩] = some [] := by
  decide

/-- C4: the claimed BWT involution fails on "ab": the forward transform
yields ("b$", 1) and the inverse - which appends the sentinel at the end
instead of reinserting it at primaryIndex - returns "$b", not "ab". -/
theorem c4_bwt_inverse_fails_on_ab :
    (burrowsWheelerTransform ['a', 'b']).transformed = ['b', '$'] ∧
    (burrowsWheelerTransform ['a', 'b']).primaryIndex = 1 ∧
    inverseBurrowsWheelerTransform (burrowsWheelerTransform ['a', 'b']).transformed
      (burrowsWheelerTransform ['a', 'b']).primaryIndex = some ['$', 'b'] ∧
    inverseBurrowsWheelerTransform (burrowsWheelerTransform ['a', 'b']).transformed
      (burrowsWheelerTransform ['a', 'b']).primaryIndex ≠ some ['a', 'b'] := by
  decide

/-- C7: for every input text the compression pipeline yields exactly 4
steps, named Original, BWT, MTF, RLE in that order, and each step's input
equals the previous step's output. -/
theorem c7_compress_shape (text : Str) :
    (compressText text).length = 4 ∧
    (compressText text).map CompressionStep.name = ["Original", "BWT", "MTF", "RLE"] ∧
    List.Chain' (fun a b => b.input = a.output) (compressText text) := by
  refine ⟨rfl, rfl, ?_⟩
  simp [compressText, List.chain'_cons]

/-- C8: compressing the empty text yields 4 steps with empty outputs and
well-defined ratio values (1.0 for the Original step and the explicitly
undefined NaN, modelled as `none`, for the three zero-by-zero divisions),
and decompressing that pipeline returns the empty text. -/
theorem c8_empty_input_degenerate :
    (compressText []).map CompressionStep.output = [[], [], [], []] ∧
    (compressText []).map CompressionStep.ratioVal = [some 1, none, none, none] ∧
    decompressText (compressText []) = some [] := by
  decide

/-- C9: run-length decoding of an input ending in a maximal digit run of
length at least 2, such as "12", consumes the run as a count and then reads
one character past the end of the string (the `none` branch of the
embedding, a TypeError in the source); and this branch is reachable even on
the run-length encoding of an actual MTF-stage output, namely the MTF
transform of "abcdefghijk", whose index string ends in the two-digit
index 10. -/
theorem c9_rle_decode_out_of_bounds :
    runLengthDecode ['1', '2'] = none ∧
    runLengthDecode (TransformResult.transformed (runLengthEncode
      (TransformResult.transformed (moveToFrontTransform
        ['a', 'b', 'c', 'd', 'e', 'f', 'g', 'h', 'i', 'j', 'k'])))) = none := by
  decide

/-- C10: a step sequence strictly longer than 4 is not rejected: the steps
past index 3 are ignored and decompression behaves exactly as on the first
4 steps; only sequences shorter than 4 take the early-return branch. -/
theorem c10_decompress_ignores_extra_steps (steps : List CompressionStep)
    (h : 4 < steps.length) :
    decompressText steps = decompressText (steps.take 4) := by
  match steps with
  | s0 :: s1 :: s2 :: s3 :: s4 :: rest => rfl
  | [] => simp at h
  | [a] => simp at h
  | [a, b] => simp at h
  | [a, b, c] => simp at h
  | [a, b, c, d] => simp at h

/-- C10 witness: a concrete 5-step sequence is decompressed exactly like its
first 4 steps. -/
theorem c10_decompress_ignores_extra_steps_witness :
    4 < ([⟨"A", [], [], none, none⟩, ⟨"B", [], [], none, none⟩,
      ⟨"C", [], [], none, none⟩, ⟨"D", [], ['x'], none, none⟩,
      ⟨"E", [], [], none, none⟩] : List CompressionStep).length ∧
    decompressText [⟨"A", [], [], none, none⟩, ⟨"B", [], [], none, none⟩,
      ⟨"C", [], [], none, none⟩, ⟨"D", [], ['x'], none, none⟩,
      ⟨"E", [], [], none, none⟩] =
    decompressText (([⟨"A", [], [], none, none⟩, ⟨"B", [], [], none, none⟩,
      ⟨"C", [], [], none, none⟩, ⟨"D", [], ['x'], none, none⟩,
      ⟨"E", [], [], none, none⟩] : List CompressionStep).take 4) :=
  ⟨by decide, c10_decompress_ignores_extra_steps _ (by decide)⟩

end Bwt
